import Mathlib

/-!
Verification of the gocco pipeline (src/main.go).

Strings and byte buffers are modelled as `List Char`; the Go code manipulates
byte slices of UTF-8 text line by line, and every string constant involved is
ASCII, so a character-list model is faithful.  Pure fragments of the program
(`parse`, the re-splitting loop of `highlight`, `getLanguage`, `destination`,
the `TemplateData` construction) are translated directly; the external
collaborators (the pygments process, the blackfriday markdown renderer, the
file system) are passed in as explicit function parameters.
-/

set_option autoImplicit false

namespace Gocco

/-! ### Generic character-list utilities (models of the Go standard operations) -/

/-- Go regexp class `\s`: the whitespace characters `[\t\n\f\r ]`. -/
def isSpace (c : Char) : Bool :=
  c == ' ' || c == '\t' || c == '\n' || c == '\x0c' || c == '\r'

/-- `startsWith p s`: `p` is a prefix of `s` (model of `bytes.HasPrefix` and of
anchored literal regex matching). -/
def startsWith : List Char → List Char → Bool
  | [], _ => true
  | _ :: _, [] => false
  | p :: ps, c :: cs => p == c && startsWith ps cs

/-- `agreeMin p s`: `p` and `s` agree on their first `min |p| |s|` characters,
i.e. `s` could be the beginning of an occurrence of `p` continued past the end
of `s`. -/
def agreeMin : List Char → List Char → Bool
  | [], _ => true
  | _ :: _, [] => true
  | p :: ps, c :: cs => p == c && agreeMin ps cs

/-- `cleanOf pat s`: no position strictly inside `s` can begin an occurrence of
`pat`, not even an occurrence that would run past the end of `s`.  This is the
side condition under which appending more text to `s` cannot create a match
that starts inside `s`. -/
def cleanOf (pat : List Char) : List Char → Bool
  | [] => true
  | c :: cs => !agreeMin pat (c :: cs) && cleanOf pat cs

/-- Fuel-indexed scan replacing leftmost non-overlapping occurrences of `pat`
by `rep`; the fuel bounds the number of scan steps and is irrelevant as soon
as it is at least the length of the string (`replaceAllF_irrel` below).  The
fuel makes the recursion structural, so the definition evaluates inside the
kernel. -/
def replaceAllF (pat rep : List Char) : Nat → List Char → List Char
  | _, [] => []
  | 0, _ :: _ => []
  | f + 1, c :: cs =>
    if pat ≠ [] ∧ startsWith pat (c :: cs) then
      rep ++ replaceAllF pat rep f ((c :: cs).drop pat.length)
    else
      c :: replaceAllF pat rep f cs

/-- Model of Go `bytes.Replace(s, pat, rep, -1)`: replace all leftmost
non-overlapping occurrences of `pat` by `rep`.  (For empty `pat` the Go
function interleaves `rep` between bytes; the program only ever calls it with
non-empty patterns, and for empty `pat` this model returns `s` unchanged.) -/
def replaceAll (pat rep s : List Char) : List Char :=
  replaceAllF pat rep s.length s

/-- Fuel-indexed count of leftmost non-overlapping occurrences of `pat`. -/
def countSubF (pat : List Char) : Nat → List Char → Nat
  | _, [] => 0
  | 0, _ :: _ => 0
  | f + 1, c :: cs =>
    if pat ≠ [] ∧ startsWith pat (c :: cs) then
      countSubF pat f ((c :: cs).drop pat.length) + 1
    else
      countSubF pat f cs

/-- Number of leftmost non-overlapping occurrences of `pat` in `s` (the number
of replacements `bytes.Replace` with count `-1` would perform). -/
def countSub (pat s : List Char) : Nat :=
  countSubF pat s.length s

/-- Model of Go `bytes.Split(s, "\n")`: the list of newline-separated chunks;
always non-empty, with one chunk more than the number of newlines. -/
def splitNl : List Char → List (List Char)
  | [] => [[]]
  | c :: cs =>
    if c = '\n' then [] :: splitNl cs
    else
      match splitNl cs with
      | [] => [[c]]
      | h :: t => (c :: h) :: t

/-! ### Data model (the `Section`, `TemplateSection`, `Language`, `TemplateData`
structures of main.go) -/

/-- A `Section` captures a piece of documentation and code (main.go lines
51-56).  The two HTML fields start out `nil` in Go; the empty list models
`nil`. -/
structure Section where
  docsText : List Char
  codeText : List Char
  DocsHTML : List Char
  CodeHTML : List Char
  deriving DecidableEq, Repr

/-- A `TemplateSection` (main.go lines 60-65): a section converted for the
templating system, with a 1-based anchor index. -/
structure TemplateSection where
  DocsHTML : List Char
  CodeHTML : List Char
  Index : Nat
  deriving DecidableEq, Repr

/-- A `Language` (main.go lines 68-80).  The derived fields `commentMatcher`,
`dividerText` and `dividerHTML` are computed from `symbol` by `setup`; here
they are modelled by the functions `commentMatch`, `dividerTextL` and
`findDivider` below, parameterised by `symbol`. -/
structure Language where
  name : List Char
  symbol : List Char
  deriving DecidableEq, Repr

/-- A `TemplateData` (main.go lines 83-95). -/
structure TemplateData where
  Title : List Char
  Sections : List TemplateSection
  Sources : List String
  Multiple : Bool
  deriving DecidableEq, Repr

/-- The comment symbol of the one registered language (`languages[".go"]`,
main.go line 281). -/
def goSym : List Char := ['/', '/']

/-- The registered go language profile (`setupLanguages`, main.go line 281). -/
def goLang : Language := { name := ['g', 'o'], symbol := goSym }

/-! ### Language registry (`getLanguage`, `setupLanguages`) -/

/-- Model of Go `filepath.Ext`: the suffix of the final path element starting
at its last dot, or empty when the final element has no dot. -/
def pathExt (p : List Char) : List Char :=
  let rb := p.reverse.takeWhile (fun c => c != '/')
  if rb.contains '.' then '.' :: (rb.takeWhile (fun c => c != '.')).reverse
  else []

/-- `getLanguage` (main.go lines 267-269): look the file extension up in the
`languages` map.  A Go map lookup miss returns the zero value `nil`, modelled
by `none`; the only registered key is `".go"`. -/
def getLanguage (source : String) : Option Language :=
  if pathExt source.data = ['.', 'g', 'o'] then some goLang else none

/-! ### The fragment splitter (`parse`, main.go lines 129-173) -/

/-- The derived `commentMatcher` test: Go regexp `^\s*//\s?` (with `//` the
language symbol) matches a line exactly when the line, after its leading
whitespace, starts with the symbol (`\s*` is forced to consume the whole
whitespace run because no whitespace character can begin the symbol). -/
def commentMatch (sym : List Char) (line : List Char) : Bool :=
  startsWith sym (line.dropWhile isSpace)

/-- The `commentMatcher.ReplaceAll(line, nil)` step (main.go line 162): strip
the leading `\s*` run, the symbol, and one further optional whitespace
character (`\s?`, greedy).  On a line the matcher does not match, the
replacement leaves the line unchanged. -/
def stripComment (sym : List Char) (line : List Char) : List Char :=
  let r := line.dropWhile isSpace
  if startsWith sym r then
    match r.drop sym.length with
    | [] => []
    | c :: cs => if isSpace c then cs else c :: cs
  else line

/-- The scanning loop of `parse` (main.go lines 149-172) followed by the final
`save` (line 171): state is the `hasCode` flag and the accumulated `codeText`
and `docsText` buffers; sections are emitted (a) mid-scan when a comment line
arrives while `hasCode` is set, and (b) once unconditionally after the scan. -/
def parseLines (sym : List Char) : Bool → List Char → List Char → List (List Char) → List Section
  | _, codeB, docsB, [] => [⟨docsB, codeB, [], []⟩]
  | hasCode, codeB, docsB, l :: rest =>
    if commentMatch sym l then
      if hasCode then
        ⟨docsB, codeB, [], []⟩ :: parseLines sym false [] (stripComment sym l ++ ['\n']) rest
      else
        parseLines sym hasCode codeB (docsB ++ (stripComment sym l ++ ['\n'])) rest
    else
      parseLines sym true (codeB ++ (l ++ ['\n'])) docsB rest

/-- `parse` specialised to the go language profile: split the raw bytes on
newlines and run the scanning loop from the empty initial state. -/
def parseGo (code : List Char) : List Section :=
  parseLines goSym false [] [] (splitNl code)

/-! ### The highlight coordinator (`highlight`, main.go lines 179-213) -/

/-- `highlightStart` (main.go line 107). -/
def hlStartL : List Char := "<div class=\"highlight\"><pre>".data

/-- `highlightEnd` (main.go line 108). -/
def hlEndL : List Char := "</pre></div>".data

/-- `dividerText` (`setup`, main.go line 290): the sentinel written between
code fragments, the newline-surrounded comment line SYMDIVIDER. -/
def dividerTextL (sym : List Char) : List Char :=
  '\n' :: (sym ++ "DIVIDER\n".data)

/-- The literal alternative of the `dividerHTML` regexp with the optional `1`
present: the text `<span class="c1">` SYM `DIVIDER</span>` (written in cons
form so that its head character is available definitionally). -/
def core1 (sym : List Char) : List Char :=
  '<' :: ("span class=\"c1\">".data ++ sym ++ "DIVIDER</span>".data)

/-- The literal alternative of the `dividerHTML` regexp with the optional `1`
absent: the text `<span class="c">` SYM `DIVIDER</span>`. -/
def core0 (sym : List Char) : List Char :=
  '<' :: ("span class=\"c\">".data ++ sym ++ "DIVIDER</span>".data)

/-- The highlighted rendering of one sentinel line as a comment token,
newline-surrounded, as it appears in the highlighter output. -/
def sentinelHTML (sym : List Char) : List Char :=
  '\n' :: (core1 sym ++ ['\n'])

/-- The position of the first occurrence of either literal alternative of the
`dividerHTML` regexp in a string, as a half-open index interval.  The two
alternatives differ where `c1` meets `c"`, so they never match at the same
position; the longer (`c1`) alternative is tried first, as the greedy `1?`
does. -/
def findCore (sym : List Char) : List Char → Option (Nat × Nat)
  | [] => none
  | c :: cs =>
    if startsWith (core1 sym) (c :: cs) then some (0, (core1 sym).length)
    else if startsWith (core0 sym) (c :: cs) then some (0, (core0 sym).length)
    else (findCore sym cs).map (fun pr => (pr.1 + 1, pr.2 + 1))

/-- Model of `dividerHTML.FindIndex` (main.go line 203) for the regexp
`\n*<span class="c1?">` SYM `DIVIDER<\/span>\n*`.  A match consists of a
literal core occurrence together with the maximal newline runs adjacent to it
(the core begins with `<`, so the greedy `\n*` always absorbs exactly the
whole adjacent run); the leftmost match is the one built around the first core
occurrence, because the newline run before any later occurrence cannot reach
back past an earlier one. -/
def findDivider (sym : List Char) (out : List Char) : Option (Nat × Nat) :=
  match findCore sym out with
  | none => none
  | some (q, e) =>
    let back := ((out.take q).reverse.takeWhile (fun c => c == '\n')).length
    let fwd := ((out.drop e).takeWhile (fun c => c == '\n')).length
    some (q - back, e + fwd)

/-- The re-splitting loop of `highlight` (main.go lines 202-212).  For each
section, the next `dividerHTML` match is located in the unconsumed output;
when there is no match, Go substitutes the interval `[len, len]`, so the whole
remaining output becomes this section's fragment and the remainder becomes
empty.  Each fragment is re-wrapped in the container markup, and `DocsHTML` is
set to the markdown rendering (`md`) of the raw documentation.  The second
component instruments the loop: it counts the iterations in which `FindIndex`
returned no match while further sections remained (`e.Next() != nil`). -/
def resplitAux (sym : List Char) (md : List Char → List Char) :
    List Char → List Section → List Section × Nat
  | _, [] => ([], 0)
  | out, s :: rest =>
    match findDivider sym out with
    | some (st, en) =>
      let pr := resplitAux sym md (out.drop en) rest
      ({ s with CodeHTML := hlStartL ++ out.take st ++ hlEndL,
                DocsHTML := md s.docsText } :: pr.1,
       pr.2)
    | none =>
      let pr := resplitAux sym md [] rest
      ({ s with CodeHTML := hlStartL ++ out ++ hlEndL,
                DocsHTML := md s.docsText } :: pr.1,
       pr.2 + if rest.isEmpty then 0 else 1)

/-- The input-writing loop of `highlight` (main.go lines 187-192): each
section's code text in order, with `dividerText` after every section that has
a successor (and not after the last). -/
def highlightInput (sym : List Char) : List Section → List Char
  | [] => []
  | s :: [] => s.codeText
  | s :: r :: rest => s.codeText ++ dividerTextL sym ++ highlightInput sym (r :: rest)

/-- `highlight` (main.go lines 179-213).  The external pygments process is
modelled by the function `hl` from the full written input to the full read
output, and blackfriday's `MarkdownCommon` by `md`.  The combined output is
stripped of all occurrences of the container markup (lines 199-200) and then
re-split section by section. -/
def highlight (sym : List Char) (hl md : List Char → List Char)
    (secs : List Section) : List Section :=
  let output := hl (highlightInput sym secs)
  let output := replaceAll hlStartL [] output
  let output := replaceAll hlEndL [] output
  (resplitAux sym md output secs).1

/-! ### Output generation (`destination`, `generateHTML`, main.go lines 216-237) -/

/-- Model of Go `filepath.Base`: the last element of the path, after dropping
trailing slashes; `"."` for the empty path, `"/"` for an all-slash path. -/
def baseName (p : String) : String :=
  if p.data.isEmpty then "." else
  let t := (p.data.reverse.dropWhile (fun c => c == '/')).reverse
  if t.isEmpty then "/" else
  String.mk (t.reverse.takeWhile (fun c => c != '/')).reverse

/-- `destination` (main.go lines 216-219): `docs/` ++ base name with its
extension removed ++ `.html`.  (`strings.LastIndex(base, Ext(base))` is the
length of the base minus the length of its extension, the extension being a
suffix; for an empty extension `LastIndex` is the full length.) -/
def destination (source : String) : String :=
  let base := (baseName source).data
  let ext := pathExt base
  String.mk ("docs/".data ++ base.take (base.length - ext.length) ++ ".html".data)

/-- The section-conversion loop of `generateHTML` (main.go lines 226-232):
1-based anchor indices. -/
def toTemplateSections : Nat → List Section → List TemplateSection
  | _, [] => []
  | i, s :: rest => ⟨s.DocsHTML, s.CodeHTML, i⟩ :: toTemplateSections (i + 1) rest

/-- `sort.Strings` (main.go line 309): sort the argument paths
lexicographically ascending. -/
def sortStrings (args : List String) : List String :=
  List.insertionSort (· ≤ ·) args

/-- The `TemplateData` built by `generateHTML` (main.go line 234) for one
source file, given the (already sorted) global `sources` list. -/
def mkTemplateData (source : String) (secs : List Section) (srcs : List String) :
    TemplateData :=
  ⟨(baseName source).data, toTemplateSections 1 secs, srcs, decide (1 < srcs.length)⟩

/-- The per-file `TemplateData` as produced by a run of `main` with argument
list `args`: `main` sorts the arguments into the shared `sources` list
(main.go lines 308-309) before any file is processed. -/
def runTemplateData (args : List String) (source : String) (secs : List Section) :
    TemplateData :=
  mkTemplateData source secs (sortStrings args)

/-! ### The per-file task (`generateDocumentation`, main.go lines 117-126) -/

/-- File-system side effects of one `generateDocumentation` task. -/
inductive Event where
  | readSource (path : String)
  | writeOutput (path : String)
  deriving DecidableEq, Repr

/-- How one `generateDocumentation` task terminates abnormally.
`fileReadError` is the `log.Panic` on an unreadable source (line 120);
`nilLanguagePanic` is the run-time nil-pointer panic raised when `parse`
dereferences the `nil` result of a failed `getLanguage` lookup (line 151).
`unsupportedLanguage` is the explicit configuration error demanded by the
specification's error taxonomy; it appears in this model only so that the
claim about it can be stated — no code path produces it. -/
inductive RunError where
  | fileReadError
  | unsupportedLanguage
  | nilLanguagePanic
  deriving DecidableEq, Repr

/-- `generateDocumentation` (main.go lines 117-126) for one source file: read
the file (panicking if unreadable), then `parse` — whose first
`commentMatcher` use panics when the language lookup missed, before anything
is written — then `highlight`, then `generateHTML`, which writes the output
file.  The first component lists the file-system events in order; the second
is the outcome (the destination path and template data on success). -/
def generateDocumentationM (fs : String → Option (List Char))
    (hl md : List Char → List Char) (srcs : List String) (source : String) :
    List Event × Except RunError (String × TemplateData) :=
  match fs source with
  | none => ([Event.readSource source], Except.error RunError.fileReadError)
  | some code =>
    match getLanguage source with
    | none => ([Event.readSource source], Except.error RunError.nilLanguagePanic)
    | some lang =>
      let secs := parseLines lang.symbol false [] [] (splitNl code)
      let secs2 := highlight lang.symbol hl md secs
      ([Event.readSource source, Event.writeOutput (destination source)],
       Except.ok (destination source, mkTemplateData source secs2 srcs))

/-! ### Specification-side definitions (used only to state properties) -/

/-- The lines stored in an accumulation buffer: each appended line carries its
trailing newline, so the final chunk of `splitNl` is empty and is dropped. -/
def bufLines (b : List Char) : List (List Char) :=
  (splitNl b).dropLast

/-- Re-assembly of the original file lines from the parsed sections: each
section's documentation lines with the canonical comment introducer
SYM-and-one-space re-inserted, followed by its code lines, in section order. -/
def reconstruct (sym : List Char) : List Section → List (List Char)
  | [] => []
  | s :: rest =>
    (bufLines s.docsText).map (fun l => sym ++ (' ' :: l)) ++
      bufLines s.codeText ++ reconstruct sym rest

/-- The (documentation, code) buffer pair accumulated by the scan of `parse`
at the moment the line loop ends — the pair the final `save` (main.go line
171) turns into the closing section. -/
def finalAcc (sym : List Char) : Bool → List Char → List Char → List (List Char) →
    List Char × List Char
  | _, codeB, docsB, [] => (docsB, codeB)
  | hasCode, codeB, docsB, l :: rest =>
    if commentMatch sym l then
      if hasCode then
        finalAcc sym false [] (stripComment sym l ++ ['\n']) rest
      else
        finalAcc sym hasCode codeB (docsB ++ (stripComment sym l ++ ['\n'])) rest
    else
      finalAcc sym true (codeB ++ (l ++ ['\n'])) docsB rest

/-- Newline-terminated-or-empty, the invariant shape of the `parse` buffers. -/
def nlTerm (b : List Char) : Bool :=
  b.isEmpty || (b.reverse.head? == some '\n')

/-- The first character is a newline. -/
def headNl (l : List Char) : Bool :=
  match l with
  | [] => false
  | c :: _ => c == '\n'

/-- The last character is a newline. -/
def lastNl (l : List Char) : Bool :=
  headNl l.reverse

/-- Code text that the sentinel machinery handles exactly: not starting or
ending with a newline (the greedy `\n*` of the divider regexp absorbs
newlines adjacent to a sentinel), and containing no position that could begin
an occurrence of the sentinel text, of either rendered divider literal, or of
the container markup.  Empty code text satisfies all conditions. -/
def goodCode (c : List Char) : Bool :=
  !headNl c && !lastNl c &&
    cleanOf (dividerTextL goSym) c && cleanOf (core1 goSym) c &&
    cleanOf (core0 goSym) c && cleanOf hlStartL c && cleanOf hlEndL c

/-- The synthetic highlighter of the sentinel round-trip property: it feeds
back exactly what was sent, wrapped in the container markup, except that each
sentinel line is rendered the way the highlighter renders a comment token. -/
def synthHL (sym : List Char) (s : List Char) : List Char :=
  hlStartL ++ replaceAll (dividerTextL sym) (sentinelHTML sym) s ++ hlEndL

/-- The body of the synthetic highlighter's output on the batched input: the
fragments' code texts joined by rendered sentinels. -/
def renderedInput (sym : List Char) : List Section → List Char
  | [] => []
  | s :: [] => s.codeText
  | s :: r :: rest => s.codeText ++ sentinelHTML sym ++ renderedInput sym (r :: rest)

/-- How many leading newlines the rendered remainder of a fragment sequence
carries: one exactly when its first fragment has empty code but is not the
last fragment (then the remainder starts with its following sentinel's
leading newline), and zero otherwise.  The greedy trailing `\n*` of the
divider match absorbs exactly this run. -/
def sentShift (rest : List Section) : Nat :=
  match rest with
  | r :: _ :: _ => if r.codeText.isEmpty then 1 else 0
  | _ => 0

/-- Newline-terminated concatenation of a list of lines, the shape of a
`parse` accumulation buffer after any number of line appends. -/
def joinT : List (List Char) → List Char
  | [] => []
  | l :: rest => l ++ ('\n' :: joinT rest)

/-! ## Helper lemmas -/

theorem replaceAllF_irrel (pat rep : List Char) :
    ∀ (f : Nat) (s : List Char), s.length ≤ f →
    replaceAllF pat rep f s = replaceAllF pat rep s.length s := by
  intro f
  induction f using Nat.strong_induction_on with
  | _ f ih =>
    intro s hs
    cases s with
    | nil => cases f <;> rfl
    | cons c cs =>
      cases f with
      | zero => simp at hs
      | succ f' =>
        have hcs : cs.length ≤ f' := by simpa using hs
        simp only [replaceAllF, List.length_cons]
        by_cases hp : pat ≠ [] ∧ startsWith pat (c :: cs) = true
        · rw [if_pos hp, if_pos hp]
          have hpl : 1 ≤ pat.length := by
            cases pat with
            | nil => exact absurd rfl hp.1
            | cons a l => simp
          have hdl : ((c :: cs).drop pat.length).length ≤ cs.length := by
            simp only [List.length_drop, List.length_cons]; omega
          congr 1
          rw [ih f' (by omega) _ (le_trans hdl hcs),
              ih cs.length (by omega) _ hdl]
        · rw [if_neg hp, if_neg hp]
          congr 1
          rw [ih f' (by omega) cs hcs]

theorem replaceAll_cons (pat rep : List Char) (c : Char) (cs : List Char) :
    replaceAll pat rep (c :: cs) =
      if pat ≠ [] ∧ startsWith pat (c :: cs) = true then
        rep ++ replaceAll pat rep ((c :: cs).drop pat.length)
      else
        c :: replaceAll pat rep cs := by
  show replaceAllF pat rep (c :: cs).length (c :: cs) = _
  simp only [List.length_cons, replaceAllF]
  by_cases hp : pat ≠ [] ∧ startsWith pat (c :: cs) = true
  · rw [if_pos hp, if_pos hp]
    have hpl : 1 ≤ pat.length := by
      cases pat with
      | nil => exact absurd rfl hp.1
      | cons a l => simp
    have hdl : ((c :: cs).drop pat.length).length ≤ cs.length := by
      simp only [List.length_drop, List.length_cons]; omega
    rw [replaceAllF_irrel pat rep cs.length _ hdl]
    rfl
  · rw [if_neg hp, if_neg hp]
    rfl

theorem countSubF_irrel (pat : List Char) :
    ∀ (f : Nat) (s : List Char), s.length ≤ f →
    countSubF pat f s = countSubF pat s.length s := by
  intro f
  induction f using Nat.strong_induction_on with
  | _ f ih =>
    intro s hs
    cases s with
    | nil => cases f <;> rfl
    | cons c cs =>
      cases f with
      | zero => simp at hs
      | succ f' =>
        have hcs : cs.length ≤ f' := by simpa using hs
        simp only [countSubF, List.length_cons]
        by_cases hp : pat ≠ [] ∧ startsWith pat (c :: cs) = true
        · rw [if_pos hp, if_pos hp]
          have hpl : 1 ≤ pat.length := by
            cases pat with
            | nil => exact absurd rfl hp.1
            | cons a l => simp
          have hdl : ((c :: cs).drop pat.length).length ≤ cs.length := by
            simp only [List.length_drop, List.length_cons]; omega
          congr 1
          rw [ih f' (by omega) _ (le_trans hdl hcs),
              ih cs.length (by omega) _ hdl]
        · rw [if_neg hp, if_neg hp]
          exact ih f' (by omega) cs hcs

theorem countSub_cons (pat : List Char) (c : Char) (cs : List Char) :
    countSub pat (c :: cs) =
      if pat ≠ [] ∧ startsWith pat (c :: cs) = true then
        countSub pat ((c :: cs).drop pat.length) + 1
      else
        countSub pat cs := by
  show countSubF pat (c :: cs).length (c :: cs) = _
  simp only [List.length_cons, countSubF]
  by_cases hp : pat ≠ [] ∧ startsWith pat (c :: cs) = true
  · rw [if_pos hp, if_pos hp]
    have hpl : 1 ≤ pat.length := by
      cases pat with
      | nil => exact absurd rfl hp.1
      | cons a l => simp
    have hdl : ((c :: cs).drop pat.length).length ≤ cs.length := by
      simp only [List.length_drop, List.length_cons]; omega
    rw [countSubF_irrel pat cs.length _ hdl]
    rfl
  · rw [if_neg hp, if_neg hp]
    rfl

theorem parseLines_ne_nil (sym : List Char) :
    ∀ (ls : List (List Char)) (h : Bool) (cB dB : List Char),
    parseLines sym h cB dB ls ≠ [] := by
  intro ls
  induction ls with
  | nil => intro h cB dB; simp [parseLines]
  | cons l rest ih =>
    intro h cB dB
    simp only [parseLines]
    by_cases hcm : commentMatch sym l = true
    · rw [if_pos hcm]
      cases h with
      | true => rw [if_pos rfl]; simp
      | false => rw [if_neg Bool.false_ne_true]; exact ih false cB _
    · rw [if_neg hcm]; exact ih true _ dB

theorem parseLines_eq_append_final (sym : List Char) :
    ∀ (ls : List (List Char)) (h : Bool) (cB dB : List Char),
    ∃ pre, parseLines sym h cB dB ls =
      pre ++ [⟨(finalAcc sym h cB dB ls).1, (finalAcc sym h cB dB ls).2, [], []⟩] := by
  intro ls
  induction ls with
  | nil => intro h cB dB; exact ⟨[], rfl⟩
  | cons l rest ih =>
    intro h cB dB
    simp only [parseLines, finalAcc]
    by_cases hcm : commentMatch sym l = true
    · rw [if_pos hcm, if_pos hcm]
      cases h with
      | true =>
        rw [if_pos rfl, if_pos rfl]
        obtain ⟨pre, hp⟩ := ih false [] (stripComment sym l ++ ['\n'])
        exact ⟨_ :: pre, by rw [hp]; rfl⟩
      | false =>
        rw [if_neg Bool.false_ne_true, if_neg Bool.false_ne_true]
        exact ih false cB _
    · rw [if_neg hcm, if_neg hcm]
      exact ih true _ dB

theorem nlTerm_append_nl (b x : List Char) : nlTerm (b ++ (x ++ ['\n'])) = true := by
  simp [nlTerm, List.reverse_append]

theorem nlTerm_snoc_nl (x : List Char) : nlTerm (x ++ ['\n']) = true := by
  simp [nlTerm, List.reverse_append]

theorem parseLines_all_nlTerm (sym : List Char) :
    ∀ (ls : List (List Char)) (h : Bool) (cB dB : List Char),
    nlTerm cB = true → nlTerm dB = true →
    (parseLines sym h cB dB ls).all (fun s => nlTerm s.docsText && nlTerm s.codeText) = true := by
  intro ls
  induction ls with
  | nil =>
    intro h cB dB hc hd
    simp [parseLines, hc, hd]
  | cons l rest ih =>
    intro h cB dB hc hd
    simp only [parseLines]
    by_cases hcm : commentMatch sym l = true
    · rw [if_pos hcm]
      cases h with
      | true =>
        rw [if_pos rfl, List.all_cons]
        have hrest := ih false [] (stripComment sym l ++ ['\n']) rfl (nlTerm_snoc_nl _)
        simp [hc, hd, hrest]
      | false =>
        rw [if_neg Bool.false_ne_true]
        exact ih false cB _ hc (nlTerm_append_nl _ _)
    · rw [if_neg hcm]
      exact ih true _ dB (nlTerm_append_nl _ _) hd

theorem parseLines_dropLast_code_ne_nil (sym : List Char) :
    ∀ (ls : List (List Char)) (h : Bool) (cB dB : List Char),
    (h = true → cB ≠ []) →
    ((parseLines sym h cB dB ls).dropLast.all (fun s => !s.codeText.isEmpty)) = true := by
  intro ls
  induction ls with
  | nil => intro h cB dB _; simp [parseLines]
  | cons l rest ih =>
    intro h cB dB hinv
    simp only [parseLines]
    by_cases hcm : commentMatch sym l = true
    · rw [if_pos hcm]
      cases h with
      | true =>
        rw [if_pos rfl]
        rw [List.dropLast_cons_of_ne_nil (parseLines_ne_nil sym rest false [] _)]
        rw [List.all_cons]
        have hrest := ih false [] (stripComment sym l ++ ['\n']) (fun hx => by cases hx)
        have hcb : cB ≠ [] := hinv rfl
        cases cB with
        | nil => exact absurd rfl hcb
        | cons a t => simp [hrest]
      | false =>
        rw [if_neg Bool.false_ne_true]
        exact ih false cB _ hinv
    · rw [if_neg hcm]
      exact ih true _ dB (fun _ => by simp)

theorem eq_append_of_startsWith :
    ∀ (p s : List Char), startsWith p s = true → s = p ++ s.drop p.length := by
  intro p
  induction p with
  | nil => intro s _; simp
  | cons a p' ih =>
    intro s h
    cases s with
    | nil => simp [startsWith] at h
    | cons c cs =>
      simp only [startsWith, Bool.and_eq_true, beq_iff_eq] at h
      obtain ⟨rfl, h2⟩ := h
      simp only [List.length_cons, List.drop_succ_cons, List.cons_append]
      exact congrArg (List.cons a) (ih cs h2)

theorem splitNl_append_nl :
    ∀ (x y : List Char), '\n' ∉ x → splitNl (x ++ ('\n' :: y)) = x :: splitNl y := by
  intro x
  induction x with
  | nil => intro y _; simp [splitNl]
  | cons c x' ih =>
    intro y hnin
    have hc : c ≠ '\n' := fun h => hnin (by simp [h])
    have hx' : '\n' ∉ x' := fun h => hnin (List.mem_cons_of_mem _ h)
    rw [List.cons_append]
    simp only [splitNl, List.append_eq]
    rw [if_neg hc, ih y hx']

theorem splitNl_ne_nil : ∀ (s : List Char), splitNl s ≠ [] := by
  intro s
  induction s with
  | nil => simp [splitNl]
  | cons c cs _ =>
    simp only [splitNl]
    by_cases hc : c = '\n'
    · rw [if_pos hc]; simp
    · rw [if_neg hc]
      cases hsp : splitNl cs with
      | nil => simp
      | cons hd tl => simp

theorem splitNl_no_nl : ∀ (s : List Char), ∀ l ∈ splitNl s, '\n' ∉ l := by
  intro s
  induction s with
  | nil =>
    intro l hl
    simp [splitNl] at hl
    simp [hl]
  | cons c cs ih =>
    intro l hl
    simp only [splitNl] at hl
    by_cases hc : c = '\n'
    · rw [if_pos hc] at hl
      rcases List.mem_cons.mp hl with h | h
      · simp [h]
      · exact ih l h
    · rw [if_neg hc] at hl
      cases hsp : splitNl cs with
      | nil => exact absurd hsp (splitNl_ne_nil cs)
      | cons hd tl =>
        rw [hsp] at hl
        rcases List.mem_cons.mp hl with h | h
        · subst h
          intro hm
          rcases List.mem_cons.mp hm with h1 | h1
          · exact hc h1.symm
          · exact ih hd (hsp ▸ List.mem_cons_self hd tl) h1
        · exact ih l (hsp ▸ List.mem_cons_of_mem hd h)

theorem joinT_concat (ds : List (List Char)) (x : List Char) :
    joinT (ds ++ [x]) = joinT ds ++ (x ++ ['\n']) := by
  induction ds with
  | nil => rfl
  | cons d ds' ih => simp [joinT, ih]

theorem splitNl_joinT :
    ∀ (ls : List (List Char)), (∀ l ∈ ls, '\n' ∉ l) → splitNl (joinT ls) = ls ++ [[]] := by
  intro ls
  induction ls with
  | nil => intro _; rfl
  | cons l ls' ih =>
    intro hnn
    show splitNl (l ++ ('\n' :: joinT ls')) = _
    rw [splitNl_append_nl l _ (hnn l (List.mem_cons_self l ls'))]
    rw [ih (fun x hx => hnn x (List.mem_cons_of_mem _ hx))]
    rfl

theorem bufLines_joinT (ls : List (List Char)) (hnn : ∀ l ∈ ls, '\n' ∉ l) :
    bufLines (joinT ls) = ls := by
  rw [bufLines, splitNl_joinT ls hnn]
  exact List.dropLast_concat

/-- A line in canonical comment form starts literally with slash, slash,
space. -/
theorem canonical_shape (l : List Char) (h : startsWith (goSym ++ [' ']) l = true) :
    ∃ t, l = '/' :: '/' :: ' ' :: t := by
  have he := eq_append_of_startsWith (goSym ++ [' ']) l h
  exact ⟨l.drop 3, he⟩

theorem stripComment_canonical (t : List Char) :
    stripComment goSym ('/' :: '/' :: ' ' :: t) = t := rfl

theorem reconstruct_parseLines :
    ∀ (ls : List (List Char)) (ds cs : List (List Char)) (h : Bool),
    (∀ l ∈ ds, '\n' ∉ l) → (∀ l ∈ cs, '\n' ∉ l) → (∀ l ∈ ls, '\n' ∉ l) →
    (∀ l ∈ ls, commentMatch goSym l = true → startsWith (goSym ++ [' ']) l = true) →
    (h = false → cs = []) →
    reconstruct goSym (parseLines goSym h (joinT cs) (joinT ds) ls) =
      ds.map (fun l => goSym ++ (' ' :: l)) ++ (cs ++ ls) := by
  intro ls
  induction ls with
  | nil =>
    intro ds cs h hds hcs _ _ _
    simp only [parseLines, reconstruct]
    rw [bufLines_joinT ds hds, bufLines_joinT cs hcs]
    simp
  | cons l rest ih =>
    intro ds cs h hds hcs hls hcanon hinv
    have hlnn : '\n' ∉ l := hls l (List.mem_cons_self l rest)
    have hrestnn : ∀ x ∈ rest, '\n' ∉ x := fun x hx => hls x (List.mem_cons_of_mem _ hx)
    have hrestcan : ∀ x ∈ rest, commentMatch goSym x = true →
        startsWith (goSym ++ [' ']) x = true :=
      fun x hx => hcanon x (List.mem_cons_of_mem _ hx)
    simp only [parseLines]
    by_cases hcm : commentMatch goSym l = true
    · rw [if_pos hcm]
      obtain ⟨t, rfl⟩ := canonical_shape l (hcanon l (List.mem_cons_self l rest) hcm)
      have htn : '\n' ∉ t := fun hm => hlnn (by simp [hm])
      cases h with
      | true =>
        rw [if_pos rfl, stripComment_canonical]
        have hthis := ih [t] [] false
          (by intro x hx; simp at hx; subst hx; exact htn)
          (by simp) hrestnn hrestcan (fun _ => rfl)
        simp only [joinT, List.append_nil] at hthis
        simp only [reconstruct]
        rw [hthis, bufLines_joinT ds hds, bufLines_joinT cs hcs]
        simp [goSym]
      | false =>
        rw [if_neg Bool.false_ne_true, stripComment_canonical]
        have hcs0 : cs = [] := hinv rfl
        subst hcs0
        rw [show joinT ds ++ (t ++ ['\n']) = joinT (ds ++ [t]) from (joinT_concat ds t).symm]
        have hthis := ih (ds ++ [t]) [] false
          (by
            intro x hx
            rcases List.mem_append.mp hx with h1 | h1
            · exact hds x h1
            · simp at h1; subst h1; exact htn)
          (by simp) hrestnn hrestcan (fun _ => rfl)
        rw [hthis]
        simp [goSym]
    · rw [if_neg hcm]
      rw [show joinT cs ++ (l ++ ['\n']) = joinT (cs ++ [l]) from (joinT_concat cs l).symm]
      have hthis := ih ds (cs ++ [l]) true hds
        (by
          intro x hx
          rcases List.mem_append.mp hx with h1 | h1
          · exact hcs x h1
          · simp at h1; subst h1; exact hlnn)
        hrestnn hrestcan (fun hx => by cases hx)
      rw [hthis]
      simp

/-! ## Claim C3 (corrected) -/

/-- Claim C3 as stated is false on the code: the comment matcher strips a
variable prefix (`\s*//\s?`), so re-inserting the canonical comment prefix
does not reconstruct every input.  On the single line `//a` (no space after
the symbol) the re-assembled lines are `// a` and the empty chunk, which
differ from the original lines. -/
theorem c3_counterexample :
    reconstruct goSym (parseGo "//a\n".data) ≠ splitNl "//a\n".data := by
  decide

/-- Claim C3, amended: for every input, `parse` produces at least one
fragment, and the round-trip — re-inserting the comment prefix in front of
each raw documentation line and concatenating with the raw code lines in
source order — reconstructs the original file's lines exactly, provided every
comment-matching line of the input is in canonical form (it starts literally
with the symbol followed by one space).  Without that proviso the round-trip
fails, since stripping `\s*//\s?` is not injective. -/
theorem c3_split_roundtrip (code : List Char)
    (hcanon : ∀ l ∈ splitNl code, commentMatch goSym l = true →
      startsWith (goSym ++ [' ']) l = true) :
    parseGo code ≠ [] ∧ reconstruct goSym (parseGo code) = splitNl code := by
  refine ⟨parseLines_ne_nil goSym (splitNl code) false [] [], ?_⟩
  have hthis := reconstruct_parseLines (splitNl code) [] [] false
    (by simp) (by simp) (splitNl_no_nl code) hcanon (fun _ => rfl)
  simpa [parseGo, joinT] using hthis

/-- Witness for C3 at the concrete input `"// a\nx\n"`. -/
theorem c3_split_roundtrip_witness :
    (∀ l ∈ splitNl "// a\nx\n".data, commentMatch goSym l = true →
      startsWith (goSym ++ [' ']) l = true) ∧
    (parseGo "// a\nx\n".data ≠ [] ∧
      reconstruct goSym (parseGo "// a\nx\n".data) = splitNl "// a\nx\n".data) :=
  ⟨by decide, c3_split_roundtrip _ (by decide)⟩

theorem findDivider_nil (sym : List Char) : findDivider sym [] = none := rfl

theorem resplitAux_nil_out (sym : List Char) (md : List Char → List Char) :
    ∀ (secs : List Section),
    resplitAux sym md [] secs =
      (secs.map (fun t => { t with CodeHTML := hlStartL ++ hlEndL,
                                   DocsHTML := md t.docsText }),
       secs.length - 1) := by
  intro secs
  induction secs with
  | nil => rfl
  | cons s rest ih =>
    simp only [resplitAux, findDivider_nil]
    rw [ih]
    cases rest with
    | nil => simp
    | cons r t => simp

theorem resplitAux_frame (sym : List Char) (md : List Char → List Char) :
    ∀ (secs : List Section) (out : List Char),
    ((resplitAux sym md out secs).1).map Section.docsText = secs.map Section.docsText ∧
    ((resplitAux sym md out secs).1).map Section.codeText = secs.map Section.codeText ∧
    ((resplitAux sym md out secs).1).map Section.DocsHTML =
      secs.map (fun s => md s.docsText) ∧
    ∃ frags : List (List Char),
      ((resplitAux sym md out secs).1).map Section.CodeHTML =
        frags.map (fun f => hlStartL ++ f ++ hlEndL) := by
  intro secs
  induction secs with
  | nil => intro out; exact ⟨rfl, rfl, rfl, [], rfl⟩
  | cons s rest ih =>
    intro out
    cases hfd : findDivider sym out with
    | some pr =>
      obtain ⟨st, en⟩ := pr
      obtain ⟨h1, h2, h3, frags, h4⟩ := ih (out.drop en)
      simp only [resplitAux, hfd]
      refine ⟨by simpa using h1, by simpa using h2, by simpa using h3,
        out.take st :: frags, ?_⟩
      simpa using h4
    | none =>
      obtain ⟨h1, h2, h3, frags, h4⟩ := ih []
      simp only [resplitAux, hfd]
      refine ⟨by simpa using h1, by simpa using h2, by simpa using h3,
        out :: frags, ?_⟩
      simpa using h4

theorem startsWith_append_self : ∀ (p x : List Char), startsWith p (p ++ x) = true := by
  intro p x
  induction p with
  | nil => rfl
  | cons a p' ih => simp [startsWith, ih]

theorem agreeMin_of_startsWith :
    ∀ (p s : List Char), startsWith p s = true → agreeMin p s = true := by
  intro p
  induction p with
  | nil => intro s _; rfl
  | cons a p' ih =>
    intro s h
    cases s with
    | nil => simp [startsWith] at h
    | cons c cs =>
      simp only [startsWith, Bool.and_eq_true] at h
      simp only [agreeMin, Bool.and_eq_true]
      exact ⟨h.1, ih cs h.2⟩

theorem agreeMin_append_mono :
    ∀ (p s b : List Char), agreeMin p (s ++ b) = true → agreeMin p s = true := by
  intro p
  induction p with
  | nil => intro s b _; rfl
  | cons a p' ih =>
    intro s b h
    cases s with
    | nil => rfl
    | cons c cs =>
      simp only [List.cons_append, agreeMin, Bool.and_eq_true] at h
      simp only [agreeMin, Bool.and_eq_true]
      exact ⟨h.1, ih cs b h.2⟩

theorem cleanOf_cons (pat : List Char) (c : Char) (cs : List Char)
    (h : cleanOf pat (c :: cs) = true) :
    agreeMin pat (c :: cs) = false ∧ cleanOf pat cs = true := by
  simp only [cleanOf, Bool.and_eq_true, Bool.not_eq_true'] at h
  exact h

theorem startsWith_false_of_clean_head (pat : List Char) (c : Char) (cs b : List Char)
    (h : cleanOf pat (c :: cs) = true) :
    startsWith pat ((c :: cs) ++ b) = false := by
  cases hsw : startsWith pat ((c :: cs) ++ b) with
  | false => rfl
  | true =>
    have h1 := agreeMin_append_mono pat (c :: cs) b (agreeMin_of_startsWith _ _ hsw)
    rw [(cleanOf_cons pat c cs h).1] at h1
    cases h1

theorem cleanOf_append :
    ∀ (a b pat : List Char), cleanOf pat a = true → cleanOf pat b = true →
    cleanOf pat (a ++ b) = true := by
  intro a
  induction a with
  | nil => intro b pat _ hb; exact hb
  | cons c a' ih =>
    intro b pat ha hb
    obtain ⟨h1, h2⟩ := cleanOf_cons pat c a' ha
    simp only [List.cons_append, cleanOf, Bool.and_eq_true, Bool.not_eq_true']
    constructor
    · cases ham : agreeMin pat (c :: (a' ++ b)) with
      | false => rfl
      | true =>
        have hmono := agreeMin_append_mono pat (c :: a') b ham
        rw [h1] at hmono
        cases hmono
    · exact ih b pat h2 hb

theorem replaceAll_of_clean :
    ∀ (s pat rep : List Char), cleanOf pat s = true → replaceAll pat rep s = s := by
  intro s
  induction s with
  | nil => intro pat rep _; rfl
  | cons c cs ih =>
    intro pat rep h
    obtain ⟨h1, h2⟩ := cleanOf_cons pat c cs h
    rw [replaceAll_cons]
    rw [if_neg ?hneg]
    · rw [ih pat rep h2]
    case hneg =>
      rintro ⟨-, hsw⟩
      rw [(agreeMin_of_startsWith pat (c :: cs) hsw : agreeMin pat (c :: cs) = true)] at h1
      cases h1

theorem replaceAll_append_self (pat rep x : List Char) (hne : pat ≠ []) :
    replaceAll pat rep (pat ++ x) = rep ++ replaceAll pat rep x := by
  cases pat with
  | nil => exact absurd rfl hne
  | cons a p' =>
    rw [List.cons_append, replaceAll_cons,
      if_pos ⟨hne, startsWith_append_self (a :: p') x⟩]
    show rep ++ replaceAll (a :: p') rep (((a :: p') ++ x).drop (a :: p').length) =
      rep ++ replaceAll (a :: p') rep x
    rw [List.drop_left]

theorem replaceAll_seg :
    ∀ (a pat rep x : List Char), cleanOf pat a = true → pat ≠ [] →
    replaceAll pat rep (a ++ (pat ++ x)) = a ++ (rep ++ replaceAll pat rep x) := by
  intro a
  induction a with
  | nil =>
    intro pat rep x _ hne
    simp only [List.nil_append]
    exact replaceAll_append_self pat rep x hne
  | cons c a' ih =>
    intro pat rep x ha hne
    obtain ⟨h1, h2⟩ := cleanOf_cons pat c a' ha
    rw [List.cons_append, replaceAll_cons, if_neg ?hneg]
    · rw [ih pat rep x h2 hne]
      rfl
    case hneg =>
      rintro ⟨-, hsw⟩
      have := startsWith_false_of_clean_head pat c a' (pat ++ x) ha
      rw [List.cons_append] at this
      rw [this] at hsw
      cases hsw

theorem replaceAll_strip_end (m pat : List Char) (hm : cleanOf pat m = true)
    (hne : pat ≠ []) :
    replaceAll pat [] (m ++ pat) = m := by
  have hseg := replaceAll_seg m pat [] [] hm hne
  simpa [replaceAll, replaceAllF] using hseg

theorem countSub_of_clean :
    ∀ (s pat : List Char), cleanOf pat s = true → countSub pat s = 0 := by
  intro s
  induction s with
  | nil => intro pat _; rfl
  | cons c cs ih =>
    intro pat h
    obtain ⟨h1, h2⟩ := cleanOf_cons pat c cs h
    rw [countSub_cons, if_neg ?hneg]
    · exact ih pat h2
    case hneg =>
      rintro ⟨-, hsw⟩
      rw [(agreeMin_of_startsWith pat (c :: cs) hsw : agreeMin pat (c :: cs) = true)] at h1
      cases h1

theorem countSub_append_self (pat x : List Char) (hne : pat ≠ []) :
    countSub pat (pat ++ x) = countSub pat x + 1 := by
  cases pat with
  | nil => exact absurd rfl hne
  | cons a p' =>
    rw [List.cons_append, countSub_cons,
      if_pos ⟨hne, startsWith_append_self (a :: p') x⟩]
    show countSub (a :: p') (((a :: p') ++ x).drop (a :: p').length) + 1 =
      countSub (a :: p') x + 1
    rw [List.drop_left]

theorem countSub_seg :
    ∀ (a pat x : List Char), cleanOf pat a = true → pat ≠ [] →
    countSub pat (a ++ (pat ++ x)) = countSub pat x + 1 := by
  intro a
  induction a with
  | nil =>
    intro pat x _ hne
    simp only [List.nil_append]
    exact countSub_append_self pat x hne
  | cons c a' ih =>
    intro pat x ha hne
    obtain ⟨h1, h2⟩ := cleanOf_cons pat c a' ha
    rw [List.cons_append, countSub_cons, if_neg ?hneg]
    · exact ih pat x h2 hne
    case hneg =>
      rintro ⟨-, hsw⟩
      have := startsWith_false_of_clean_head pat c a' (pat ++ x) ha
      rw [List.cons_append] at this
      rw [this] at hsw
      cases hsw

theorem take_len_succ_append :
    ∀ (a : List Char) (x : Char) (z : List Char),
    (a ++ (x :: z)).take (a.length + 1) = a ++ [x] := by
  intro a x z
  induction a with
  | nil => rfl
  | cons c a' ih =>
    simp only [List.cons_append, List.length_cons, List.take_succ_cons, ih]

theorem drop_len_add_append :
    ∀ (a : List Char) (k : Nat) (b : List Char),
    (a ++ b).drop (a.length + k) = b.drop k := by
  intro a
  induction a with
  | nil => intro k b; simp
  | cons c a' ih =>
    intro k b
    simp only [List.cons_append, List.length_cons]
    rw [show a'.length + 1 + k = (a'.length + k) + 1 from by omega]
    rw [List.drop_succ_cons]
    exact ih k b

theorem takeWhile_nl_nil (l : List Char) (h : headNl l = false) :
    l.takeWhile (fun ch => ch == '\n') = [] := by
  cases l with
  | nil => rfl
  | cons a t =>
    have ha : (a == '\n') = false := h
    simp [List.takeWhile_cons, ha]

theorem trailing_run_one (c : List Char) (h : lastNl c = false) :
    (((c ++ ['\n']).reverse).takeWhile (fun ch => ch == '\n')).length = 1 := by
  rw [List.reverse_append]
  simp only [List.reverse_cons, List.reverse_nil, List.nil_append, List.singleton_append]
  rw [List.takeWhile_cons]
  simp [takeWhile_nl_nil c.reverse h]

theorem leadRun_cons_nl (X : List Char) :
    (('\n' :: X).takeWhile (fun ch => ch == '\n')).length =
      (X.takeWhile (fun ch => ch == '\n')).length + 1 := by
  simp [List.takeWhile_cons]

theorem startsWith_core1_nl (sym : List Char) (y : List Char) :
    startsWith (core1 sym) ('\n' :: y) = false := by
  simp [core1, startsWith]

theorem startsWith_core0_nl (sym : List Char) (y : List Char) :
    startsWith (core0 sym) ('\n' :: y) = false := by
  simp [core0, startsWith]

theorem findCore_cons_false (sym : List Char) (x : Char) (xs : List Char)
    (h1 : startsWith (core1 sym) (x :: xs) = false)
    (h0 : startsWith (core0 sym) (x :: xs) = false) :
    findCore sym (x :: xs) = (findCore sym xs).map (fun pr => (pr.1 + 1, pr.2 + 1)) := by
  simp [findCore, h1, h0]

theorem findCore_none (sym : List Char) :
    ∀ (c : List Char), cleanOf (core1 sym) c = true → cleanOf (core0 sym) c = true →
    findCore sym c = none := by
  intro c
  induction c with
  | nil => intro _ _; rfl
  | cons x xs ih =>
    intro h1 h0
    obtain ⟨h1a, h1b⟩ := cleanOf_cons _ _ _ h1
    obtain ⟨h0a, h0b⟩ := cleanOf_cons _ _ _ h0
    have hs1 : startsWith (core1 sym) (x :: xs) = false := by
      cases hsw : startsWith (core1 sym) (x :: xs) with
      | false => rfl
      | true => rw [agreeMin_of_startsWith _ _ hsw] at h1a; cases h1a
    have hs0 : startsWith (core0 sym) (x :: xs) = false := by
      cases hsw : startsWith (core0 sym) (x :: xs) with
      | false => rfl
      | true => rw [agreeMin_of_startsWith _ _ hsw] at h0a; cases h0a
    rw [findCore_cons_false sym x xs hs1 hs0, ih h1b h0b]
    rfl

theorem findCore_cons_true1 (sym : List Char) (x : Char) (xs : List Char)
    (h1 : startsWith (core1 sym) (x :: xs) = true) :
    findCore sym (x :: xs) = some (0, (core1 sym).length) := by
  simp [findCore, h1]

theorem findCore_self (sym z : List Char) :
    findCore sym (core1 sym ++ z) = some (0, (core1 sym).length) := by
  have hsw : startsWith (core1 sym)
      ('<' :: (("span class=\"c1\">".data ++ sym ++ "DIVIDER</span>".data) ++ z)) = true :=
    startsWith_append_self (core1 sym) z
  calc findCore sym (core1 sym ++ z)
      = findCore sym
          ('<' :: (("span class=\"c1\">".data ++ sym ++ "DIVIDER</span>".data) ++ z)) := rfl
    _ = some (0, (core1 sym).length) := findCore_cons_true1 sym '<' _ hsw

theorem findCore_sentinel_head (sym X : List Char) :
    findCore sym ('\n' :: (core1 sym ++ ('\n' :: X))) =
      some (1, (core1 sym).length + 1) := by
  rw [findCore_cons_false sym '\n' _ (startsWith_core1_nl sym _) (startsWith_core0_nl sym _)]
  rw [findCore_self sym ('\n' :: X)]
  rfl

theorem findCore_at (sym : List Char) :
    ∀ (c X : List Char), cleanOf (core1 sym) c = true → cleanOf (core0 sym) c = true →
    findCore sym (c ++ ('\n' :: (core1 sym ++ ('\n' :: X)))) =
      some (c.length + 1, (core1 sym).length + (c.length + 1)) := by
  intro c
  induction c with
  | nil =>
    intro X _ _
    rw [List.nil_append, findCore_sentinel_head]
    simp
  | cons x c' ih =>
    intro X h1 h0
    have hs1 : startsWith (core1 sym)
        ((x :: c') ++ ('\n' :: (core1 sym ++ ('\n' :: X)))) = false :=
      startsWith_false_of_clean_head _ _ _ _ h1
    have hs0 : startsWith (core0 sym)
        ((x :: c') ++ ('\n' :: (core1 sym ++ ('\n' :: X)))) = false :=
      startsWith_false_of_clean_head _ _ _ _ h0
    rw [List.cons_append] at hs1 hs0
    rw [List.cons_append, findCore_cons_false sym x _ hs1 hs0,
      ih X (cleanOf_cons _ _ _ h1).2 (cleanOf_cons _ _ _ h0).2]
    simp
    omega

theorem findDivider_at (c X : List Char) (d : Nat)
    (h1 : cleanOf (core1 goSym) c = true) (h0 : cleanOf (core0 goSym) c = true)
    (hlast : lastNl c = false)
    (hX : (X.takeWhile (fun ch => ch == '\n')).length = d) :
    findDivider goSym (c ++ ('\n' :: (core1 goSym ++ ('\n' :: X)))) =
      some (c.length, c.length + ((core1 goSym).length + 2 + d)) := by
  simp only [findDivider]
  rw [findCore_at goSym c X h1 h0]
  simp only []
  rw [take_len_succ_append c '\n' (core1 goSym ++ ('\n' :: X))]
  rw [trailing_run_one c hlast]
  rw [show (core1 goSym).length + (c.length + 1) = c.length + ((core1 goSym).length + 1)
      from by omega]
  rw [drop_len_add_append c ((core1 goSym).length + 1) ('\n' :: (core1 goSym ++ ('\n' :: X)))]
  rw [List.drop_succ_cons, List.drop_left]
  rw [leadRun_cons_nl X, hX]
  simp only [Option.some.injEq, Prod.mk.injEq]
  constructor <;> omega

theorem drop_after_sentinel (c X : List Char) (d : Nat) :
    (c ++ ('\n' :: (core1 goSym ++ ('\n' :: X)))).drop
      (c.length + ((core1 goSym).length + 2 + d)) = X.drop d := by
  rw [drop_len_add_append c ((core1 goSym).length + 2 + d)
    ('\n' :: (core1 goSym ++ ('\n' :: X)))]
  rw [show (core1 goSym).length + 2 + d = ((core1 goSym).length + (1 + d)) + 1 from by omega]
  rw [List.drop_succ_cons]
  rw [drop_len_add_append (core1 goSym) (1 + d) ('\n' :: X)]
  rw [show 1 + d = d + 1 from by omega]
  rw [List.drop_succ_cons]

theorem findDivider_shift (X : List Char) (d : Nat)
    (hX : (X.takeWhile (fun ch => ch == '\n')).length = d) :
    findDivider goSym (core1 goSym ++ ('\n' :: X)) =
      some (0, (core1 goSym).length + (d + 1)) := by
  simp only [findDivider]
  rw [findCore_self goSym ('\n' :: X)]
  simp only [List.take_zero, List.reverse_nil, List.takeWhile_nil, List.length_nil]
  rw [List.drop_left]
  rw [leadRun_cons_nl X, hX]

theorem drop_shift (X : List Char) (d : Nat) :
    (core1 goSym ++ ('\n' :: X)).drop ((core1 goSym).length + (d + 1)) = X.drop d := by
  rw [drop_len_add_append (core1 goSym) (d + 1) ('\n' :: X)]
  rw [List.drop_succ_cons]

theorem goodCode_split (c : List Char) (h : goodCode c = true) :
    headNl c = false ∧ lastNl c = false ∧
    cleanOf (dividerTextL goSym) c = true ∧ cleanOf (core1 goSym) c = true ∧
    cleanOf (core0 goSym) c = true ∧ cleanOf hlStartL c = true ∧
    cleanOf hlEndL c = true := by
  simp only [goodCode, Bool.and_eq_true, Bool.not_eq_true'] at h
  obtain ⟨⟨⟨⟨⟨⟨h2, h3⟩, h4⟩, h5⟩, h6⟩, h7⟩, h8⟩ := h
  exact ⟨h2, h3, h4, h5, h6, h7, h8⟩

theorem headNl_append_of_ne_nil (l z : List Char) (h : l ≠ []) :
    headNl (l ++ z) = headNl l := by
  cases l with
  | nil => exact absurd rfl h
  | cons a t => rfl

theorem rendered_cons_cons (sym : List Char) (s r : Section) (rest : List Section) :
    renderedInput sym (s :: r :: rest) =
      s.codeText ++ ('\n' :: (core1 sym ++ ('\n' :: renderedInput sym (r :: rest)))) := by
  show s.codeText ++ sentinelHTML sym ++ renderedInput sym (r :: rest) = _
  simp [sentinelHTML, List.append_assoc]

theorem headNl_core1_append (z : List Char) : headNl (core1 goSym ++ z) = false := rfl

theorem leadRun_rendered (rest : List Section)
    (hgood : ∀ s ∈ rest, goodCode s.codeText = true) :
    ((renderedInput goSym rest).takeWhile (fun ch => ch == '\n')).length =
      sentShift rest := by
  cases rest with
  | nil => rfl
  | cons r rest' =>
    obtain ⟨hh, -, -, -, -, -, -⟩ :=
      goodCode_split r.codeText (hgood r (List.mem_cons_self r rest'))
    cases rest' with
    | nil =>
      show ((r.codeText).takeWhile (fun ch => ch == '\n')).length = 0
      rw [takeWhile_nl_nil r.codeText hh]
      rfl
    | cons r2 rest'' =>
      rw [rendered_cons_cons]
      by_cases he : r.codeText.isEmpty
      · have hre : r.codeText = [] := by
          cases hc : r.codeText with
          | nil => rfl
          | cons a t => rw [hc] at he; simp at he
        rw [hre, List.nil_append, leadRun_cons_nl,
          takeWhile_nl_nil _ (headNl_core1_append ('\n' :: renderedInput goSym (r2 :: rest'')))]
        simp [sentShift, he]
      · have hrne : r.codeText ≠ [] := by
          intro hc
          rw [hc] at he
          exact he rfl
        rw [takeWhile_nl_nil _ (by rw [headNl_append_of_ne_nil _ _ hrne]; exact hh)]
        simp [sentShift, he]

theorem cleanOf_rendered (pat : List Char) (hsent : cleanOf pat (sentinelHTML goSym) = true) :
    ∀ (secs : List Section), (∀ s ∈ secs, cleanOf pat s.codeText = true) →
    cleanOf pat (renderedInput goSym secs) = true := by
  intro secs
  induction secs with
  | nil => intro _; rfl
  | cons s rest ih =>
    intro hall
    cases rest with
    | nil => exact hall s (List.mem_cons_self s [])
    | cons r rest' =>
      show cleanOf pat
        (s.codeText ++ sentinelHTML goSym ++ renderedInput goSym (r :: rest')) = true
      rw [List.append_assoc]
      refine cleanOf_append _ _ _ (hall s (List.mem_cons_self s _)) ?_
      exact cleanOf_append _ _ _ hsent
        (ih (fun x hx => hall x (List.mem_cons_of_mem _ hx)))

theorem dividerTextL_ne_nil (sym : List Char) : dividerTextL sym ≠ [] := by
  simp [dividerTextL]

theorem replaceAll_input_rendered :
    ∀ (secs : List Section),
    (∀ s ∈ secs, cleanOf (dividerTextL goSym) s.codeText = true) →
    replaceAll (dividerTextL goSym) (sentinelHTML goSym) (highlightInput goSym secs) =
      renderedInput goSym secs := by
  intro secs
  induction secs with
  | nil => intro _; rfl
  | cons s rest ih =>
    intro hall
    cases rest with
    | nil =>
      show replaceAll _ _ s.codeText = s.codeText
      exact replaceAll_of_clean _ _ _ (hall s (List.mem_cons_self s []))
    | cons r rest' =>
      show replaceAll (dividerTextL goSym) (sentinelHTML goSym)
          (s.codeText ++ dividerTextL goSym ++ highlightInput goSym (r :: rest')) =
        s.codeText ++ sentinelHTML goSym ++ renderedInput goSym (r :: rest')
      rw [List.append_assoc,
        replaceAll_seg _ _ _ _ (hall s (List.mem_cons_self s _)) (dividerTextL_ne_nil goSym),
        ih (fun x hx => hall x (List.mem_cons_of_mem _ hx)), ← List.append_assoc]

theorem countSub_input :
    ∀ (secs : List Section),
    (∀ s ∈ secs, cleanOf (dividerTextL goSym) s.codeText = true) →
    countSub (dividerTextL goSym) (highlightInput goSym secs) = secs.length - 1 := by
  intro secs
  induction secs with
  | nil => intro _; rfl
  | cons s rest ih =>
    intro hall
    cases rest with
    | nil =>
      show countSub _ s.codeText = 0
      exact countSub_of_clean _ _ (hall s (List.mem_cons_self s []))
    | cons r rest' =>
      show countSub (dividerTextL goSym)
          (s.codeText ++ dividerTextL goSym ++ highlightInput goSym (r :: rest')) = _
      rw [List.append_assoc,
        countSub_seg _ _ _ (hall s (List.mem_cons_self s _)) (dividerTextL_ne_nil goSym),
        ih (fun x hx => hall x (List.mem_cons_of_mem _ hx))]
      simp only [List.length_cons]
      omega

theorem strip_wrapped (M : List Char) (hS : cleanOf hlStartL M = true)
    (hE : cleanOf hlEndL M = true) :
    replaceAll hlEndL [] (replaceAll hlStartL [] (hlStartL ++ M ++ hlEndL)) = M := by
  rw [List.append_assoc]
  rw [replaceAll_append_self hlStartL [] (M ++ hlEndL) (by decide)]
  rw [List.nil_append]
  rw [replaceAll_of_clean _ _ _ (cleanOf_append M hlEndL hlStartL hS (by decide))]
  exact replaceAll_strip_end M hlEndL hE (by decide)

theorem resplitAux_cons_some (sym : List Char) (md : List Char → List Char)
    (out : List Char) (s : Section) (rest : List Section) (st en : Nat)
    (h : findDivider sym out = some (st, en)) :
    resplitAux sym md out (s :: rest) =
      ({ s with CodeHTML := hlStartL ++ out.take st ++ hlEndL,
                DocsHTML := md s.docsText } ::
        (resplitAux sym md (out.drop en) rest).1,
       (resplitAux sym md (out.drop en) rest).2) := by
  simp only [resplitAux, h]

theorem resplit_next (md : List Char → List Char) (rest : List Section)
    (hgood : ∀ s ∈ rest, goodCode s.codeText = true)
    (h1 : rest ≠ [] →
      resplitAux goSym md (renderedInput goSym rest) rest =
        (rest.map (fun s => { s with CodeHTML := hlStartL ++ s.codeText ++ hlEndL,
                                     DocsHTML := md s.docsText }), 0))
    (h2 : ∀ r rest', rest = r :: rest' → rest' ≠ [] → r.codeText = [] →
      resplitAux goSym md (core1 goSym ++ ('\n' :: renderedInput goSym rest')) rest =
        (rest.map (fun s => { s with CodeHTML := hlStartL ++ s.codeText ++ hlEndL,
                                     DocsHTML := md s.docsText }), 0))
    (hne : rest ≠ []) :
    resplitAux goSym md ((renderedInput goSym rest).drop (sentShift rest)) rest =
      (rest.map (fun s => { s with CodeHTML := hlStartL ++ s.codeText ++ hlEndL,
                                   DocsHTML := md s.docsText }), 0) := by
  cases rest with
  | nil => exact absurd rfl hne
  | cons r rest' =>
    cases rest' with
    | nil =>
      rw [show sentShift [r] = 0 from rfl, List.drop_zero]
      exact h1 (List.cons_ne_nil r [])
    | cons r2 rest'' =>
      by_cases he : r.codeText.isEmpty
      · have hre : r.codeText = [] := by
          cases hc : r.codeText with
          | nil => rfl
          | cons a t => rw [hc] at he; simp at he
        rw [show sentShift (r :: r2 :: rest'') = 1 from by simp [sentShift, he]]
        rw [rendered_cons_cons, hre, List.nil_append, List.drop_succ_cons, List.drop_zero]
        exact h2 r (r2 :: rest'') rfl (List.cons_ne_nil r2 rest'') hre
      · rw [show sentShift (r :: r2 :: rest'') = 0 from by simp [sentShift, he], List.drop_zero]
        exact h1 (List.cons_ne_nil r (r2 :: rest''))

theorem resplit_rendered_strong (md : List Char → List Char) :
    ∀ (secs : List Section), (∀ s ∈ secs, goodCode s.codeText = true) →
    (secs ≠ [] →
      resplitAux goSym md (renderedInput goSym secs) secs =
        (secs.map (fun s => { s with CodeHTML := hlStartL ++ s.codeText ++ hlEndL,
                                     DocsHTML := md s.docsText }), 0)) ∧
    (∀ r rest', secs = r :: rest' → rest' ≠ [] → r.codeText = [] →
      resplitAux goSym md (core1 goSym ++ ('\n' :: renderedInput goSym rest')) secs =
        (secs.map (fun s => { s with CodeHTML := hlStartL ++ s.codeText ++ hlEndL,
                                     DocsHTML := md s.docsText }), 0)) := by
  intro secs
  induction secs with
  | nil =>
    intro _
    exact ⟨fun h => absurd rfl h, fun r rest' h => nomatch h⟩
  | cons s rest ih =>
    intro hgood
    obtain ⟨hh, hl, hd, hc1, hc0, hhs, hhe⟩ :=
      goodCode_split s.codeText (hgood s (List.mem_cons_self s rest))
    have hgtail : ∀ x ∈ rest, goodCode x.codeText = true :=
      fun x hx => hgood x (List.mem_cons_of_mem _ hx)
    have ihp := ih hgtail
    constructor
    · intro _
      cases rest with
      | nil =>
        have hnone : findDivider goSym s.codeText = none := by
          simp [findDivider, findCore_none goSym s.codeText hc1 hc0]
        show resplitAux goSym md s.codeText [s] = _
        simp only [resplitAux, hnone]
        simp
      | cons r rest'' =>
        have hX := leadRun_rendered (r :: rest'') hgtail
        have hdiv := findDivider_at s.codeText (renderedInput goSym (r :: rest''))
          (sentShift (r :: rest'')) hc1 hc0 hl hX
        rw [rendered_cons_cons]
        rw [resplitAux_cons_some goSym md _ s (r :: rest'') _ _ hdiv]
        rw [List.take_left, drop_after_sentinel]
        rw [resplit_next md (r :: rest'') hgtail ihp.1 ihp.2 (List.cons_ne_nil r rest'')]
        simp
    · intro r rest' heq hne' hre
      cases heq
      have hX := leadRun_rendered rest hgtail
      have hdiv := findDivider_shift (renderedInput goSym rest) (sentShift rest) hX
      rw [resplitAux_cons_some goSym md _ s rest _ _ hdiv]
      rw [List.take_zero, drop_shift]
      rw [resplit_next md rest hgtail ihp.1 ihp.2 hne']
      simp [hre]

theorem resplit_rendered (md : List Char → List Char) :
    ∀ (secs : List Section), secs ≠ [] →
    (∀ s ∈ secs, goodCode s.codeText = true) →
    resplitAux goSym md (renderedInput goSym secs) secs =
      (secs.map (fun s => { s with CodeHTML := hlStartL ++ s.codeText ++ hlEndL,
                                   DocsHTML := md s.docsText }), 0) :=
  fun secs hne hgood => (resplit_rendered_strong md secs hgood).1 hne

/-! ## Claim C1 (corrected) -/

/-- Claim C1 as stated is false on the code: with a pure identity pass-through
highlighter (wrapped in the container markup), the sentinels come back in
their raw text form `\n//DIVIDER\n`, which the `dividerHTML` regexp — built
for the highlighted rendering `<span class="c1?">//DIVIDER</span>` — never
matches.  The re-split then assigns the whole output (first fragment's code,
the raw sentinel, and the second fragment's code) to the first fragment and
nothing to the second. -/
theorem c1_counterexample :
    highlight goSym (fun s => hlStartL ++ s ++ hlEndL) (fun x => x)
      [⟨[], "x".data, [], []⟩, ⟨[], "y".data, [], []⟩] ≠
      ([⟨[], "x".data, [], []⟩, ⟨[], "y".data, [], []⟩] : List Section).map
        (fun s => { s with CodeHTML := hlStartL ++ s.codeText ++ hlEndL,
                           DocsHTML := (fun x => x) s.docsText }) := by
  decide

/-- Claim C1, amended: for every non-empty fragment sequence, the batched
highlighter input contains each fragment's code in order with exactly N-1
sentinel delimiters between fragments (none after the last), and when the
highlighter is an identity pass-through wrapped in the container markup that
renders each sentinel line in the highlighted comment form the sentinel
matcher recognises, the re-split returns each fragment's original code
content re-wrapped in the container markup, with no content attributed to a
neighbouring fragment — provided each fragment's code does not begin or end
with a newline (the matcher's greedy `\n*` absorbs newlines adjacent to a
sentinel), and contains no position that could begin a sentinel text, a
rendered divider, or the container markup.  Empty code fragments, in any
position, round-trip as well. -/
theorem c1_sentinel_roundtrip (secs : List Section) (md : List Char → List Char)
    (hne : secs ≠ []) (hgood : ∀ s ∈ secs, goodCode s.codeText = true) :
    countSub (dividerTextL goSym) (highlightInput goSym secs) = secs.length - 1 ∧
    highlight goSym (synthHL goSym) md secs =
      secs.map (fun s => { s with CodeHTML := hlStartL ++ s.codeText ++ hlEndL,
                                  DocsHTML := md s.docsText }) := by
  have hdiv : ∀ s ∈ secs, cleanOf (dividerTextL goSym) s.codeText = true :=
    fun s hs => (goodCode_split _ (hgood s hs)).2.2.1
  refine ⟨countSub_input secs hdiv, ?_⟩
  show (resplitAux goSym md
    (replaceAll hlEndL [] (replaceAll hlStartL []
      (hlStartL ++ replaceAll (dividerTextL goSym) (sentinelHTML goSym)
        (highlightInput goSym secs) ++ hlEndL))) secs).1 = _
  rw [replaceAll_input_rendered secs hdiv]
  rw [strip_wrapped (renderedInput goSym secs)
    (cleanOf_rendered hlStartL (by decide) secs
      (fun s hs => (goodCode_split _ (hgood s hs)).2.2.2.2.2.1))
    (cleanOf_rendered hlEndL (by decide) secs
      (fun s hs => (goodCode_split _ (hgood s hs)).2.2.2.2.2.2))]
  rw [resplit_rendered md secs hne hgood]

/-- Witness for C1 at a concrete three-fragment sequence whose final fragment
has empty code. -/
theorem c1_sentinel_roundtrip_witness :
    (([⟨"d1\n".data, "x := 1".data, [], []⟩, ⟨[], "y".data, [], []⟩,
       ⟨"d3\n".data, [], [], []⟩] : List Section) ≠ [] ∧
     ∀ s ∈ ([⟨"d1\n".data, "x := 1".data, [], []⟩, ⟨[], "y".data, [], []⟩,
       ⟨"d3\n".data, [], [], []⟩] : List Section),
       goodCode s.codeText = true) ∧
    (countSub (dividerTextL goSym)
      (highlightInput goSym
        [⟨"d1\n".data, "x := 1".data, [], []⟩, ⟨[], "y".data, [], []⟩,
         ⟨"d3\n".data, [], [], []⟩]) =
        ([⟨"d1\n".data, "x := 1".data, [], []⟩, ⟨[], "y".data, [], []⟩,
          ⟨"d3\n".data, [], [], []⟩] : List Section).length - 1 ∧
     highlight goSym (synthHL goSym) (fun x => x)
        [⟨"d1\n".data, "x := 1".data, [], []⟩, ⟨[], "y".data, [], []⟩,
         ⟨"d3\n".data, [], [], []⟩] =
      ([⟨"d1\n".data, "x := 1".data, [], []⟩, ⟨[], "y".data, [], []⟩,
        ⟨"d3\n".data, [], [], []⟩] : List Section).map
        (fun s => { s with CodeHTML := hlStartL ++ s.codeText ++ hlEndL,
                           DocsHTML := (fun x => x) s.docsText })) :=
  ⟨⟨by decide, by decide⟩,
   c1_sentinel_roundtrip _ (fun x => x) (by decide) (by decide)⟩

/-! ## Claim C2 (corrected) -/

/-- Claim C2 as stated is false on the code: a missing sentinel match can
occur on a fragment that is not the last (here on the first of two), and
`highlight` raises no `SentinelMismatch` error — it silently assigns the
entire remaining output to the current fragment and empty output to the
remaining fragments.  The instrumentation counter records one no-match
iteration with further sections remaining. -/
theorem c2_counterexample :
    (resplitAux goSym (fun x => x) "AB".data
      [⟨[], "x".data, [], []⟩, ⟨[], "y".data, [], []⟩]).2 = 1 ∧
    (highlight goSym (fun _ => "AB".data) (fun x => x)
      [⟨[], "x".data, [], []⟩, ⟨[], "y".data, [], []⟩]).map Section.CodeHTML =
      [hlStartL ++ "AB".data ++ hlEndL, hlStartL ++ hlEndL] := by
  decide

/-- Claim C2, amended: when the highlighted output cannot be realigned with a
fragment boundary (no sentinel match for the current fragment while later
fragments remain), `highlight` does not fail loudly — no `SentinelMismatch`
error exists in the code.  The re-splitting loop silently assigns the entire
remaining output to the current fragment and the empty output to every later
fragment, and the number of no-match iterations with sections remaining is
the number of later fragments. -/
theorem c2_missing_sentinel_silent (sym : List Char) (md : List Char → List Char)
    (out : List Char) (s : Section) (rest : List Section)
    (hnone : findDivider sym out = none) :
    resplitAux sym md out (s :: rest) =
      ({ s with CodeHTML := hlStartL ++ out ++ hlEndL, DocsHTML := md s.docsText } ::
        rest.map (fun t => { t with CodeHTML := hlStartL ++ hlEndL,
                                    DocsHTML := md t.docsText }),
       rest.length) := by
  simp only [resplitAux, hnone]
  rw [resplitAux_nil_out]
  cases rest with
  | nil => simp
  | cons r t => simp

/-- Witness for C2 at a concrete missing-sentinel input. -/
theorem c2_missing_sentinel_silent_witness :
    findDivider goSym "AB".data = none ∧
    resplitAux goSym (fun x => x) "AB".data
      [⟨"d".data, "c".data, [], []⟩, ⟨"e".data, "f".data, [], []⟩] =
      ((⟨"d".data, "c".data, "d".data, hlStartL ++ "AB".data ++ hlEndL⟩ : Section) ::
        ([⟨"e".data, "f".data, [], []⟩] : List Section).map
          (fun t => { t with CodeHTML := hlStartL ++ hlEndL,
                             DocsHTML := (fun x => x) t.docsText }),
       (1 : Nat)) :=
  ⟨by decide,
   c2_missing_sentinel_silent goSym (fun x => x) "AB".data
     ⟨"d".data, "c".data, [], []⟩ [⟨"e".data, "f".data, [], []⟩] (by decide)⟩

/-! ## Claim C5 (corrected) -/

/-- Claim C5 as stated is false on the code: `highlight` does not leave every
documentation field unchanged — it overwrites `DocsHTML` (the documentation
HTML field, `nil` when `parse` created the section) with the markdown
rendering of the raw documentation (main.go line 211). -/
theorem c5_counterexample :
    (highlight goSym (fun s => s) (fun s => s)
      [⟨"a".data, "x".data, [], []⟩]).map Section.DocsHTML ≠
      ([⟨"a".data, "x".data, [], []⟩] : List Section).map Section.DocsHTML := by
  decide

/-- Claim C5, amended: for every fragment sequence and every highlighter and
markdown renderer, `highlight` leaves the raw documentation and raw code text
of every fragment unchanged, and populates both `CodeHTML` and `DocsHTML` —
every fragment's `CodeHTML` becomes an extracted output piece re-wrapped in
the container markup, and its `DocsHTML` the markdown rendering of the
fragment's raw documentation. -/
theorem c5_highlight_frame (sym : List Char) (hl md : List Char → List Char)
    (secs : List Section) :
    (highlight sym hl md secs).map Section.docsText = secs.map Section.docsText ∧
    (highlight sym hl md secs).map Section.codeText = secs.map Section.codeText ∧
    (highlight sym hl md secs).map Section.DocsHTML =
      secs.map (fun s => md s.docsText) ∧
    ∃ frags : List (List Char),
      (highlight sym hl md secs).map Section.CodeHTML =
        frags.map (fun f => hlStartL ++ f ++ hlEndL) :=
  resplitAux_frame sym md secs
    (replaceAll hlEndL [] (replaceAll hlStartL [] (hl (highlightInput sym secs))))

/-! ## Claim C6 (corrected) -/

/-- Claim C6 as stated is false on the code: splitting
`"// a\nx\n// b\ny\n"` does not give second fragment code `"y\n"` — the
trailing empty chunk after the final newline is scanned as one more (empty)
code line, adding a second newline. -/
theorem c6_counterexample :
    parseGo "// a\nx\n// b\ny\n".data ≠
      [⟨"a\n".data, "x\n".data, [], []⟩, ⟨"b\n".data, "y\n".data, [], []⟩] := by
  decide

/-- Claim C6, amended: splitting the four newline-terminated lines `// a`,
`x`, `// b`, `y` produces exactly two fragments, the first with documentation
`"a\n"` and code `"x\n"`, the second with documentation `"b\n"` and code
`"y\n\n"` (the extra newline coming from the empty chunk after the final
newline of the file). -/
theorem c6_split_two_fragments :
    parseGo "// a\nx\n// b\ny\n".data =
      [⟨"a\n".data, "x\n".data, [], []⟩, ⟨"b\n".data, "y\n\n".data, [], []⟩] := by
  decide

/-! ## Claim C7 (confirmed) -/

/-- Claim C7: for every input (including the empty one), after the line scan
`parse` emits the final accumulated (documentation, code) buffer pair as a
closing section — so the result is never empty and its last element is
exactly that pair, even when one or both buffers are empty. -/
theorem c7_final_pair_always_emitted (code : List Char) :
    parseGo code ≠ [] ∧
    ∃ pre, parseGo code = pre ++
      [⟨(finalAcc goSym false [] [] (splitNl code)).1,
        (finalAcc goSym false [] [] (splitNl code)).2, [], []⟩] := by
  refine ⟨parseLines_ne_nil goSym (splitNl code) false [] [], ?_⟩
  exact parseLines_eq_append_final goSym (splitNl code) false [] []

/-! ## Claim C9 (confirmed) -/

/-- Claim C9: in every section list returned by `parse`, every section except
the last has non-empty raw code text — a section is closed mid-scan only when
`hasCode` is set, which happens only after at least one code line was
appended. -/
theorem c9_nonlast_code_nonempty (code : List Char) :
    ((parseGo code).dropLast.all (fun s => !s.codeText.isEmpty)) = true :=
  parseLines_dropLast_code_ne_nil goSym (splitNl code) false [] []
    (fun hx => by cases hx)

/-! ## Claim C4 (corrected) -/

/-- Claim C4 as stated is false on the code: for a source with an
unregistered extension, processing does not fail with an explicit
`UnsupportedLanguage` error, and not before file I/O — the source file is
read first (main.go line 118), and the failure is the run-time nil-pointer
panic raised when `parse` uses the `nil` language returned by the map lookup
miss.  No output file is written, so that part of the claim holds. -/
theorem c4_counterexample :
    generateDocumentationM (fun _ => some ['x']) (fun s => s) (fun s => s) [] "a.xyz" =
      ([Event.readSource "a.xyz"], Except.error RunError.nilLanguagePanic) ∧
    RunError.nilLanguagePanic ≠ RunError.unsupportedLanguage := by
  exact ⟨rfl, by decide⟩

/-- Claim C4, amended: for every source path whose extension has no
registered language profile, the lookup returns no profile (not a silent
default), and — when the source file is readable — processing fails with the
run-time nil-language panic immediately after the file read, before any
output is produced: the event trace holds exactly the source read and no
write event, so no output file is written for that source. -/
theorem c4_unsupported_language (fs : String → Option (List Char))
    (hl md : List Char → List Char) (srcs : List String) (source : String)
    (code : List Char) (hfs : fs source = some code)
    (hlang : getLanguage source = none) :
    generateDocumentationM fs hl md srcs source =
      ([Event.readSource source], Except.error RunError.nilLanguagePanic) ∧
    ∀ p, Event.writeOutput p ∉ (generateDocumentationM fs hl md srcs source).1 := by
  have h1 : generateDocumentationM fs hl md srcs source =
      ([Event.readSource source], Except.error RunError.nilLanguagePanic) := by
    simp only [generateDocumentationM, hfs, hlang]
  refine ⟨h1, ?_⟩
  intro p
  rw [h1]
  simp

/-- Witness for C4 at the concrete unsupported path `b.xyz`. -/
theorem c4_unsupported_language_witness :
    ((fun _ => some ['x']) : String → Option (List Char)) "b.xyz" = some ['x'] ∧
    getLanguage "b.xyz" = none ∧
    (generateDocumentationM (fun _ => some ['x']) (fun s => s) (fun s => s) [] "b.xyz" =
      ([Event.readSource "b.xyz"], Except.error RunError.nilLanguagePanic) ∧
     ∀ p, Event.writeOutput p ∉
       (generateDocumentationM (fun _ => some ['x']) (fun s => s) (fun s => s) [] "b.xyz").1) :=
  ⟨rfl, by decide, c4_unsupported_language _ _ _ _ _ ['x'] rfl (by decide)⟩

/-! ## Claim C8 (confirmed) -/

/-- Claim C8: when two or more input files are processed in one run, every
file's template data carries `Multiple = true` and the same `Sources` list,
which is sorted lexicographically and is a permutation of the full input
path list. -/
theorem c8_shared_sorted_sources (args : List String) (f g : String)
    (sf sg : List Section) (h2 : 2 ≤ args.length) :
    (runTemplateData args f sf).Multiple = true ∧
    (runTemplateData args f sf).Sources = (runTemplateData args g sg).Sources ∧
    List.Sorted (· ≤ ·) ((runTemplateData args f sf).Sources) ∧
    ((runTemplateData args f sf).Sources).Perm args := by
  have hperm : (sortStrings args).Perm args := List.perm_insertionSort _ args
  have hlen : (sortStrings args).length = args.length := hperm.length_eq
  refine ⟨?_, rfl, ?_, hperm⟩
  · show decide (1 < (sortStrings args).length) = true
    rw [decide_eq_true_eq]
    omega
  · exact List.sorted_insertionSort _ args

/-- Witness for C8 at the concrete two-file argument list. -/
theorem c8_shared_sorted_sources_witness :
    2 ≤ (["b.go", "a.go"] : List String).length ∧
    ((runTemplateData ["b.go", "a.go"] "a.go" []).Multiple = true ∧
     (runTemplateData ["b.go", "a.go"] "a.go" []).Sources =
       (runTemplateData ["b.go", "a.go"] "b.go" []).Sources ∧
     List.Sorted (· ≤ ·) ((runTemplateData ["b.go", "a.go"] "a.go" []).Sources) ∧
     ((runTemplateData ["b.go", "a.go"] "a.go" []).Sources).Perm ["b.go", "a.go"]) :=
  ⟨by decide, c8_shared_sorted_sources ["b.go", "a.go"] "a.go" "b.go" [] [] (by decide)⟩

/-! ## Claim C10 (confirmed) -/

/-- Claim C10: every section returned by `parse` has raw documentation text
and raw code text that are each either empty or newline-terminated, because
every accumulated line is appended together with a trailing newline. -/
theorem c10_buffers_newline_terminated (code : List Char) :
    (parseGo code).all (fun s => nlTerm s.docsText && nlTerm s.codeText) = true :=
  parseLines_all_nlTerm goSym (splitNl code) false [] [] rfl rfl

end Gocco
